import Mathlib

/-!
Verification of the `delay` operator (src/internal/operators/delay.ts).

The operator is embedded as a discrete-event state machine.  A `DelaySubscriber`
instance is a `DelayState`: its FIFO `queue` of `DelayMessage`s, its `active`
flag, and the `isStopped` flag of the base `Subscriber`.  In addition the model
tracks `armed`, the number of dispatch actions currently scheduled on the
scheduler for this instance, and `armedWait`, the wait the most recent
(re)scheduling used — these are observables of the scheduler collaborator, not
fields of the TypeScript class, and let us state the activity-flag claims.

Time is `Int` (milliseconds of the scheduler's `now()` clock).  Each upstream
or scheduler event carries the value of `scheduler.now()` at the instant it
runs; inside one dispatch callback `now()` is treated as constant.
-/

/-- The `delay` argument of the operator: a number of milliseconds or a valid
`Date` (represented by its numeric timestamp `+date`; `isValidDate` in the
source accepts exactly the non-NaN `Date` objects, which is what the `date`
constructor ranges over). -/
inductive DelayArg where
  | number (d : Int)
  | date (d : Int)
deriving Repr, DecidableEq

/-- `const delayFor = isValidDate(delay) ? +delay - scheduler.now() : Math.abs(delay);`
from `delay` in delay.ts: the effective delay duration, computed once at
operator construction from the argument and the scheduler clock. -/
def delayFor (arg : DelayArg) (now : Int) : Int :=
  match arg with
  | .date d => d - now
  | .number d => |d|

/-- `class DelayMessage { time, value }` from delay.ts. -/
structure DelayMessage (T : Type) where
  time : Int
  value : T
deriving Repr, DecidableEq

/-- One downstream signal (what `destination` receives). -/
inductive OutEvent (T : Type) where
  | next (v : T)
  | error
  | complete
deriving Repr, DecidableEq

/-- State of one `DelaySubscriber` instance together with the scheduler-side
bookkeeping of its dispatch action.  `queue`, `active` are the fields of the
class; `isStopped` is inherited from `Subscriber` (set by the first terminal
signal); `errored` records that the terminal signal was an error; `armed`
counts the dispatch actions currently scheduled for this instance and
`armedWait` is the wait passed to the most recent `schedule` call. -/
structure DelayState (T : Type) where
  queue : List (DelayMessage T)
  active : Bool
  isStopped : Bool
  errored : Bool
  armed : Nat
  armedWait : Option Int
deriving Repr, DecidableEq

/-- A fresh `DelaySubscriber`: empty queue, `active = false`, nothing armed. -/
def initState (T : Type) : DelayState T :=
  { queue := [], active := false, isStopped := false, errored := false,
    armed := 0, armedWait := none }

/-- The `while (queue.length > 0 && queue[0].time - scheduler.now() <= 0)` loop
of `DelaySubscriber.dispatch`: returns the remaining queue and the values
shifted off the front, in order. -/
def drainDue (T : Type) (t : Int) : List (DelayMessage T) → List (DelayMessage T) × List T
  | [] => ([], [])
  | m :: rest =>
    if m.time - t ≤ 0 then
      ((drainDue T t rest).1, m.value :: (drainDue T t rest).2)
    else (m :: rest, [])

/-- The branch structure of `DelaySubscriber.dispatch` after the drain loop,
given the drained queue `q` and drained values `vs`:
if the queue is still non-empty, reschedule the same action with
`Math.max(0, queue[0].time - scheduler.now())` (the action stays armed);
else if `source.isStopped`, complete downstream and clear `active`;
else unsubscribe the action and clear `active`.  Firing consumed the armed
action, so the non-rescheduling branches leave `armed - 1` actions. -/
def dispatchAfter (T : Type) (t : Int) (s : DelayState T)
    (q : List (DelayMessage T)) (vs : List T) : DelayState T × List (OutEvent T) :=
  match q with
  | m :: rest =>
    ({ s with queue := m :: rest, armedWait := some (max 0 (m.time - t)) },
      vs.map OutEvent.next)
  | [] =>
    if s.isStopped then
      ({ s with queue := [], active := false, armed := s.armed - 1, armedWait := none },
        vs.map OutEvent.next ++ [OutEvent.complete])
    else
      ({ s with queue := [], active := false, armed := s.armed - 1, armedWait := none },
        vs.map OutEvent.next)

/-- `DelaySubscriber.dispatch` run at clock value `t`. -/
def dispatchStep (T : Type) (t : Int) (s : DelayState T) : DelayState T × List (OutEvent T) :=
  dispatchAfter T t s (drainDue T t s.queue).1 (drainDue T t s.queue).2

/-- `DelaySubscriber._next` (with `_schedule` inlined) run at clock value `t`
for a stage whose delay duration is `δ`: push `new DelayMessage(scheduler.now()
+ this.delay, value)`, and if `this.active === false` set `active` and schedule
the dispatch action with wait `this.delay`. -/
def nextStep (T : Type) (δ t : Int) (v : T) (s : DelayState T) :
    DelayState T × List (OutEvent T) :=
  let q := s.queue ++ [⟨t + δ, v⟩]
  if s.active = false then
    ({ s with queue := q, active := true, armed := s.armed + 1, armedWait := some δ }, [])
  else
    ({ s with queue := q }, [])

/-- `DelaySubscriber._error`: `this.queue.length = 0`, forward the error
downstream, then `this.unsubscribe()`.  `isStopped` is set by the base
`Subscriber` before `_error` runs.  The teardown effect on the scheduled
action is modelled from the spec: the `Subscriber`/teardown plumbing is
outside delay.ts, and §4.3 of the spec states that error teardown cancels any
armed dispatch action, so `armed` drops to `0`.  Note `_error` never writes
`active`, so the flag keeps its previous value. -/
def errorStep (T : Type) (s : DelayState T) : DelayState T × List (OutEvent T) :=
  ({ s with queue := [], isStopped := true, errored := true, armed := 0, armedWait := none },
    [OutEvent.error])

/-- `DelaySubscriber._complete`: if `this.queue.length === 0` complete
downstream; then `this.unsubscribe()` (which detaches from upstream but does
not touch the scheduled action — that was added to `destination`).
`isStopped` is set by the base `Subscriber` before `_complete` runs. -/
def completeStep (T : Type) (s : DelayState T) : DelayState T × List (OutEvent T) :=
  if s.queue.isEmpty then
    ({ s with isStopped := true }, [OutEvent.complete])
  else
    ({ s with isStopped := true }, [])

/-- An event of a stage's history: an upstream signal arriving, or the armed
dispatch action firing, each stamped with `scheduler.now()` at that instant. -/
inductive UEvent (T : Type) where
  | next (t : Int) (v : T)
  | error (t : Int)
  | complete (t : Int)
  | dispatch (t : Int)
deriving Repr, DecidableEq

/-- Clock value at which the event runs. -/
def UEvent.time (T : Type) : UEvent T → Int
  | .next t _ => t
  | .error t => t
  | .complete t => t
  | .dispatch t => t

/-- Whether the event is an upstream error. -/
def UEvent.isErr (T : Type) : UEvent T → Bool
  | .error _ => true
  | _ => false

/-- One step of the stage on an event. -/
def stepFn (T : Type) (δ : Int) (s : DelayState T) : UEvent T → DelayState T × List (OutEvent T)
  | .next t v => nextStep T δ t v s
  | .error _ => errorStep T s
  | .complete _ => completeStep T s
  | .dispatch t => dispatchStep T t s

/-- Which events may occur in state `s` when the previous event ran at
`lastT`: the clock is monotonic; upstream signals arrive one at a time and
stop after the first terminal signal (`isStopped`); the dispatch callback
fires only while an action is actually scheduled. -/
def validEventB (T : Type) (s : DelayState T) (lastT : Int) : UEvent T → Bool
  | .next t _ => decide (lastT ≤ t) && !s.isStopped
  | .error t => decide (lastT ≤ t) && !s.isStopped
  | .complete t => decide (lastT ≤ t) && !s.isStopped
  | .dispatch t => decide (lastT ≤ t) && decide (1 ≤ s.armed)

/-- Run the stage over a history of events, refusing invalid histories.
Returns the final state and the concatenated downstream output. -/
def runFrom (T : Type) (δ : Int) : DelayState T → Int → List (UEvent T) →
    Option (DelayState T × List (OutEvent T))
  | s, _, [] => some (s, [])
  | s, lastT, e :: es =>
    if validEventB T s lastT e then
      (runFrom T δ (stepFn T δ s e).1 (UEvent.time T e) es).map
        (fun p => (p.1, (stepFn T δ s e).2 ++ p.2))
    else none

/-- Run a fresh stage with delay duration `δ`, clock starting at `t0`. -/
def run (T : Type) (δ t0 : Int) (es : List (UEvent T)) :
    Option (DelayState T × List (OutEvent T)) :=
  runFrom T δ (initState T) t0 es

/-- The values carried by the `next` events of a history, in order. -/
def arrivals (T : Type) : List (UEvent T) → List T
  | [] => []
  | .next _ v :: es => v :: arrivals T es
  | _ :: es => arrivals T es

/-- The values carried by the `next` outputs of a downstream trace, in order. -/
def emitted (T : Type) : List (OutEvent T) → List T
  | [] => []
  | .next v :: os => v :: emitted T os
  | _ :: os => emitted T os

/-- `true` when the history contains an upstream error event. -/
def hasError (T : Type) (es : List (UEvent T)) : Bool :=
  es.any (UEvent.isErr T)

/-- Claim C1, as stated, is false at a concrete input: for the negative
numeric delay `-5` the effective delay duration computed by the operator is
`Math.abs(-5) = 5`, not `0`. -/
theorem C1_counterexample :
    delayFor (DelayArg.number (-5)) 0 = 5 ∧ delayFor (DelayArg.number (-5)) 0 ≠ 0 := by
  decide

/-- Claim C1 (amended): a negative numeric delay `d` is normalized through
`Math.abs`, so the stage does not fail and the effective delay duration is the
nonnegative magnitude `-d` — not `0`. -/
theorem C1_abs_normalization (d now : Int) (h : d < 0) :
    delayFor (DelayArg.number d) now = -d ∧ 0 ≤ delayFor (DelayArg.number d) now := by
  constructor
  · simp only [delayFor, abs_of_neg h]
  · simp only [delayFor]
    exact abs_nonneg d

/-- Witness for C1_abs_normalization at `d = -5`, `now = 0`. -/
theorem C1_abs_normalization_witness :
    (-5 : Int) < 0 ∧ delayFor (DelayArg.number (-5)) 0 = -(-5) ∧
      0 ≤ delayFor (DelayArg.number (-5)) 0 :=
  ⟨by decide, (C1_abs_normalization (-5) 0 (by decide)).1,
    (C1_abs_normalization (-5) 0 (by decide)).2⟩

/-- Claim C10: the `Date` branch computes the wait once, at construction, as
`+date - scheduler.now()`, with no clamping or absolute value: for a `Date` in
the past the resulting delay is negative and is used as-is, so an arriving
value gets a due time `t + (d - now)` strictly in the past and the dispatch
action is armed with the negative wait itself. -/
theorem C10_date_branch_no_clamp (T : Type) (d now t : Int) (v : T)
    (hpast : d < now) :
    delayFor (DelayArg.date d) now = d - now ∧
    delayFor (DelayArg.date d) now < 0 ∧
    (nextStep T (delayFor (DelayArg.date d) now) t v (initState T)).1.queue =
      [⟨t + (d - now), v⟩] ∧
    t + (d - now) < t ∧
    (nextStep T (delayFor (DelayArg.date d) now) t v (initState T)).1.armedWait =
      some (d - now) := by
  refine ⟨rfl, by simp only [delayFor]; omega, ?_, by omega, ?_⟩
  · simp [nextStep, initState, delayFor]
  · simp [nextStep, initState, delayFor]

/-- Witness for C10_date_branch_no_clamp at `d = 0`, `now = 5`, `t = 100`,
`v = 42`. -/
theorem C10_date_branch_no_clamp_witness :
    (0 : Int) < 5 ∧
    (delayFor (DelayArg.date 0) 5 = 0 - 5 ∧
     delayFor (DelayArg.date 0) 5 < 0 ∧
     (nextStep Nat (delayFor (DelayArg.date 0) 5) 100 42 (initState Nat)).1.queue =
       [⟨100 + (0 - 5), 42⟩] ∧
     100 + (0 - 5) < (100 : Int) ∧
     (nextStep Nat (delayFor (DelayArg.date 0) 5) 100 42 (initState Nat)).1.armedWait =
       some (0 - 5)) :=
  ⟨by decide, C10_date_branch_no_clamp Nat 0 5 100 42 (by decide)⟩

/-- Clock value after the last event of a history (or `t0` if it is empty). -/
def lastTime (T : Type) (t0 : Int) : List (UEvent T) → Int
  | [] => t0
  | e :: es => lastTime T (UEvent.time T e) es

/-- `true` when every output of the trace is a `next`. -/
def nextsOnly (T : Type) (outs : List (OutEvent T)) : Prop :=
  ∀ o ∈ outs, ∃ v, o = OutEvent.next v

/-- The drain loop shifts a prefix of the queue off the front: the original
queue is the drained values (as messages) followed by the remaining queue. -/
theorem drainDue_values (T : Type) (t : Int) (q : List (DelayMessage T)) :
    q.map DelayMessage.value =
      (drainDue T t q).2 ++ (drainDue T t q).1.map DelayMessage.value := by
  induction q with
  | nil => rfl
  | cons m rest ih =>
    by_cases h : m.time - t ≤ 0
    · simp [drainDue, h, ih]
    · simp [drainDue, h]

/-- The queue left by the drain loop is a suffix of the original queue. -/
theorem drainDue_suffix (T : Type) (t : Int) (q : List (DelayMessage T)) :
    ∃ pre, q = pre ++ (drainDue T t q).1 := by
  induction q with
  | nil => exact ⟨[], rfl⟩
  | cons m rest ih =>
    by_cases h : m.time - t ≤ 0
    · obtain ⟨pre, hp⟩ := ih
      refine ⟨m :: pre, ?_⟩
      simp only [drainDue, if_pos h, List.cons_append]
      exact congrArg (m :: ·) hp
    · exact ⟨[], by simp [drainDue, h]⟩

/-- `emitted` distributes over append. -/
theorem emitted_append (T : Type) (a b : List (OutEvent T)) :
    emitted T (a ++ b) = emitted T a ++ emitted T b := by
  induction a with
  | nil => rfl
  | cons o a ih => cases o <;> simp [emitted, ih]

/-- `emitted` of a pure `next` trace recovers the values. -/
theorem emitted_map_next (T : Type) (vs : List T) :
    emitted T (vs.map OutEvent.next) = vs := by
  induction vs with
  | nil => rfl
  | cons v vs ih => simp [emitted, ih]

/-- A trace of only `next`s is determined by its emitted values. -/
theorem nextsOnly_eq_map (T : Type) (outs : List (OutEvent T))
    (h : nextsOnly T outs) : outs = (emitted T outs).map OutEvent.next := by
  induction outs with
  | nil => rfl
  | cons o os ih =>
    obtain ⟨v, rfl⟩ := h o (by simp)
    simp only [emitted, List.map_cons, List.cons.injEq, true_and]
    exact ih (fun o ho => h o (by simp [ho]))

/-- `_next` in both branches: the message `⟨now + δ, v⟩` goes to the back of
the queue, nothing is emitted, and the terminal flags are untouched. -/
theorem nextStep_common (T : Type) (δ t : Int) (v : T) (s : DelayState T) :
    (nextStep T δ t v s).1.queue = s.queue ++ [⟨t + δ, v⟩] ∧
    (nextStep T δ t v s).2 = [] ∧
    (nextStep T δ t v s).1.errored = s.errored ∧
    (nextStep T δ t v s).1.isStopped = s.isStopped := by
  by_cases h : s.active = false <;> simp [nextStep, h]

/-- `_complete` in both branches only sets `isStopped`. -/
theorem completeStep_common (T : Type) (s : DelayState T) :
    (completeStep T s).1 = { s with isStopped := true } := by
  by_cases h : s.queue.isEmpty <;> simp [completeStep, h]

/-- Inversion of one step of `runFrom`. -/
theorem runFrom_cons_inv (T : Type) (δ : Int) (s : DelayState T) (lastT : Int)
    (e : UEvent T) (es : List (UEvent T)) (sf : DelayState T)
    (outs : List (OutEvent T))
    (hr : runFrom T δ s lastT (e :: es) = some (sf, outs)) :
    validEventB T s lastT e = true ∧
      ∃ outs2, runFrom T δ (stepFn T δ s e).1 (UEvent.time T e) es = some (sf, outs2) ∧
        outs = (stepFn T δ s e).2 ++ outs2 := by
  simp only [runFrom] at hr
  split at hr
  · next hv =>
    refine ⟨hv, ?_⟩
    rw [Option.map_eq_some'] at hr
    obtain ⟨⟨s2, outs2⟩, hrec, heq⟩ := hr
    simp only [Prod.mk.injEq] at heq
    exact ⟨outs2, by rw [heq.1] at hrec; exact hrec, heq.2.symm⟩
  · exact absurd hr (by simp)

/-- `runFrom` over a concatenated history is the composition of the runs,
threading the clock of the last event of the first part. -/
theorem runFrom_append (T : Type) (δ : Int) (s : DelayState T) (t0 : Int)
    (a b : List (UEvent T)) :
    runFrom T δ s t0 (a ++ b) =
      (runFrom T δ s t0 a).bind (fun p =>
        (runFrom T δ p.1 (lastTime T t0 a) b).map (fun q => (q.1, p.2 ++ q.2))) := by
  induction a generalizing s t0 with
  | nil =>
    simp only [List.nil_append, runFrom, Option.some_bind, lastTime]
    cases runFrom T δ s t0 b with
    | none => rfl
    | some p => simp
  | cons e a ih =>
    simp only [List.cons_append, runFrom, lastTime, List.append_eq]
    by_cases hv : validEventB T s t0 e = true
    · rw [if_pos hv, if_pos hv, ih]
      cases runFrom T δ (stepFn T δ s e).1 (UEvent.time T e) a with
      | none => rfl
      | some p =>
        cases hB : runFrom T δ p.1 (lastTime T (UEvent.time T e) a) b with
        | none => simp [hB]
        | some q => simp [hB, List.append_assoc]
    · rw [if_neg hv, if_neg hv]
      rfl

/-- Once the stage is stopped with an empty schedule, no further event is
valid: the remaining history must be empty. -/
theorem runFrom_frozen (T : Type) (δ : Int) (s : DelayState T) (lastT : Int)
    (es : List (UEvent T)) (sf : DelayState T) (outs : List (OutEvent T))
    (hr : runFrom T δ s lastT es = some (sf, outs))
    (h1 : s.isStopped = true) (h2 : s.armed = 0) :
    es = [] ∧ sf = s ∧ outs = [] := by
  cases es with
  | nil =>
    simp only [runFrom, Option.some.injEq, Prod.mk.injEq] at hr
    exact ⟨rfl, hr.1.symm, hr.2.symm⟩
  | cons e rest =>
    have hv := (runFrom_cons_inv T δ s lastT e rest sf outs hr).1
    exfalso
    cases e <;> simp [validEventB, h1, h2] at hv

/-- Invariants holding in every reachable stage state: at most one dispatch
action is scheduled; until an upstream error, `active` tracks exactly whether
one is scheduled; after an error the stage is cleared and stopped; an armed
action implies a non-empty queue; the queue is sorted by due time and every
due time is at most `lastT + δ`. -/
structure Reach (T : Type) (δ lastT : Int) (s : DelayState T) : Prop where
  armed_le : s.armed ≤ 1
  active_armed : s.errored = false → s.active = decide (s.armed = 1)
  errored_state : s.errored = true → s.armed = 0 ∧ s.queue = [] ∧ s.isStopped = true
  armed_queue : s.armed = 1 → s.queue ≠ []
  sorted : List.Chain' (fun a b : DelayMessage T => a.time ≤ b.time) s.queue
  bounded : ∀ m ∈ s.queue, m.time ≤ lastT + δ

/-- The fresh stage satisfies the invariants. -/
theorem reach_init (T : Type) (δ t0 : Int) : Reach T δ t0 (initState T) := by
  refine ⟨?_, ?_, ?_, ?_, ?_, ?_⟩ <;> simp [initState]

/-- `_next` preserves the reachable-state invariants. -/
theorem reach_next (T : Type) (δ lastT t : Int) (v : T) (s : DelayState T)
    (h : Reach T δ lastT s) (ht : lastT ≤ t) (hstop : s.isStopped = false) :
    Reach T δ t (nextStep T δ t v s).1 := by
  have herr : s.errored = false := by
    cases he : s.errored with
    | false => rfl
    | true => rw [(h.errored_state he).2.2] at hstop; cases hstop
  have hact := h.active_armed herr
  have harmle := h.armed_le
  have hsorted : List.Chain' (fun a b : DelayMessage T => a.time ≤ b.time)
      (s.queue ++ [⟨t + δ, v⟩]) := by
    rw [List.chain'_append]
    refine ⟨h.sorted, List.chain'_singleton _, ?_⟩
    intro x hx y hy
    have hxq : x ∈ s.queue := List.mem_of_mem_getLast? hx
    have hb := h.bounded x hxq
    simp only [List.head?_cons, Option.mem_def, Option.some.injEq] at hy
    rw [← hy]
    show x.time ≤ t + δ
    omega
  have hbound : ∀ m ∈ s.queue ++ [(⟨t + δ, v⟩ : DelayMessage T)], m.time ≤ t + δ := by
    intro m hm
    rcases List.mem_append.1 hm with hm | hm
    · exact le_trans (h.bounded m hm) (by omega)
    · rw [List.mem_singleton.1 hm]
  by_cases ha : s.active = false
  · have harm : s.armed = 0 := by
      cases harm1 : s.armed with
      | zero => rfl
      | succ n =>
        have h1 : s.armed = 1 := by omega
        rw [h1, ha] at hact
        simp at hact
    refine ⟨?_, ?_, ?_, ?_, ?_, ?_⟩
    · simp [nextStep, ha, harm]
    · intro _
      simp [nextStep, ha, harm]
    · simp [nextStep, ha, herr]
    · intro _
      simp [nextStep, ha]
    · simpa [nextStep, ha] using hsorted
    · simpa [nextStep, ha] using hbound
  · have ha' : s.active = true := by revert ha; cases s.active <;> simp
    refine ⟨?_, ?_, ?_, ?_, ?_, ?_⟩
    · simpa [nextStep, ha'] using harmle
    · intro _
      simpa [nextStep, ha'] using hact
    · simp [nextStep, ha', herr]
    · intro _
      simp [nextStep, ha']
    · simpa [nextStep, ha'] using hsorted
    · simpa [nextStep, ha'] using hbound

/-- `_error` moves the stage into the torn-down error state, which satisfies
the invariants. -/
theorem reach_error (T : Type) (δ t : Int) (s : DelayState T) :
    Reach T δ t (errorStep T s).1 := by
  refine ⟨?_, ?_, ?_, ?_, ?_, ?_⟩ <;> simp [errorStep]

/-- `_complete` preserves the reachable-state invariants. -/
theorem reach_complete (T : Type) (δ lastT t : Int) (s : DelayState T)
    (h : Reach T δ lastT s) (ht : lastT ≤ t) (hstop : s.isStopped = false) :
    Reach T δ t (completeStep T s).1 := by
  have herr : s.errored = false := by
    cases he : s.errored with
    | false => rfl
    | true => rw [(h.errored_state he).2.2] at hstop; cases hstop
  rw [completeStep_common]
  refine ⟨h.armed_le, ?_, ?_, h.armed_queue, h.sorted, ?_⟩
  · intro _
    exact h.active_armed herr
  · intro hc
    exact absurd (show s.errored = true from hc) (by simp [herr])
  · intro m hm
    exact le_trans (h.bounded m hm) (by omega)

/-- `dispatch` preserves the reachable-state invariants (it fires only while
an action is scheduled). -/
theorem reach_dispatch (T : Type) (δ lastT t : Int) (s : DelayState T)
    (h : Reach T δ lastT s) (ht : lastT ≤ t) (harm : 1 ≤ s.armed) :
    Reach T δ t (dispatchStep T t s).1 := by
  have harm1 : s.armed = 1 := le_antisymm h.armed_le harm
  have herr : s.errored = false := by
    cases he : s.errored with
    | false => rfl
    | true =>
      have := (h.errored_state he).1
      omega
  have hact : s.active = true := by
    rw [h.active_armed herr, harm1]
    simp
  obtain ⟨pre, hpre⟩ := drainDue_suffix T t s.queue
  have hsorted' : List.Chain' (fun a b : DelayMessage T => a.time ≤ b.time)
      (drainDue T t s.queue).1 := by
    have hs := h.sorted
    rw [hpre] at hs
    exact (List.chain'_append.1 hs).2.1
  have hbound' : ∀ m ∈ (drainDue T t s.queue).1, m.time ≤ t + δ := by
    intro m hm
    have hmq : m ∈ s.queue := by
      rw [hpre]
      exact List.mem_append_right _ hm
    exact le_trans (h.bounded m hmq) (by omega)
  unfold dispatchStep
  cases hq : (drainDue T t s.queue).1 with
  | cons m rest =>
    rw [hq] at hsorted' hbound'
    refine ⟨?_, ?_, ?_, ?_, ?_, ?_⟩
    · simpa [dispatchAfter] using h.armed_le
    · intro _
      simpa [dispatchAfter, harm1] using hact
    · simp [dispatchAfter, herr]
    · intro _
      simp [dispatchAfter]
    · simpa [dispatchAfter] using hsorted'
    · simpa [dispatchAfter] using hbound'
  | nil =>
    have hnil : (dispatchAfter T t s [] (drainDue T t s.queue).2).1 =
        { s with queue := [], active := false, armed := s.armed - 1, armedWait := none } := by
      by_cases hst : s.isStopped = true <;> simp [dispatchAfter, hst]
    rw [hnil]
    refine ⟨?_, ?_, ?_, ?_, ?_, ?_⟩
    · show s.armed - 1 ≤ 1
      omega
    · intro _
      show (false : Bool) = decide (s.armed - 1 = 1)
      rw [harm1]
      rfl
    · intro hc
      exact absurd (show s.errored = true from hc) (by simp [herr])
    · intro hc
      exact absurd (show s.armed - 1 = 1 from hc) (by omega)
    · exact List.chain'_nil
    · intro m hm
      exact absurd hm (List.not_mem_nil m)

/-- Every valid step preserves the reachable-state invariants. -/
theorem reach_step (T : Type) (δ lastT : Int) (s : DelayState T) (e : UEvent T)
    (h : Reach T δ lastT s) (hv : validEventB T s lastT e = true) :
    Reach T δ (UEvent.time T e) (stepFn T δ s e).1 := by
  cases e with
  | next t v =>
    simp only [validEventB, Bool.and_eq_true, decide_eq_true_eq,
      Bool.not_eq_true'] at hv
    exact reach_next T δ lastT t v s h hv.1 hv.2
  | error t => exact reach_error T δ t s
  | complete t =>
    simp only [validEventB, Bool.and_eq_true, decide_eq_true_eq,
      Bool.not_eq_true'] at hv
    exact reach_complete T δ lastT t s h hv.1 hv.2
  | dispatch t =>
    simp only [validEventB, Bool.and_eq_true, decide_eq_true_eq] at hv
    exact reach_dispatch T δ lastT t s h hv.1 hv.2

/-- Every state reached by a valid run satisfies the invariants. -/
theorem reach_run (T : Type) (δ : Int) (s : DelayState T) (lastT : Int)
    (es : List (UEvent T)) (sf : DelayState T) (outs : List (OutEvent T))
    (hr : runFrom T δ s lastT es = some (sf, outs)) (h : Reach T δ lastT s) :
    Reach T δ (lastTime T lastT es) sf := by
  induction es generalizing s lastT outs with
  | nil =>
    simp only [runFrom, Option.some.injEq, Prod.mk.injEq] at hr
    rw [← hr.1]
    exact h
  | cons e rest ih =>
    obtain ⟨hv, outs2, hrec, -⟩ := runFrom_cons_inv T δ s lastT e rest sf outs hr
    exact ih _ _ _ hrec (reach_step T δ lastT s e h hv)

/-- Output accounting for error-free runs.  Either the run has produced only
`next`s so far, and the values emitted followed by the values still queued are
exactly the values queued at the start followed by the arrivals (in order); or
the run has completed downstream, in which case the output is exactly every
such value, in order, followed by the single `complete`, and the stage is
drained, stopped and disarmed. -/
theorem run_shape (T : Type) (δ : Int) (s : DelayState T) (lastT : Int)
    (es : List (UEvent T)) (sf : DelayState T) (outs : List (OutEvent T))
    (hr : runFrom T δ s lastT es = some (sf, outs))
    (hne : hasError T es = false)
    (h : Reach T δ lastT s) (herr : s.errored = false) :
    (nextsOnly T outs ∧
       emitted T outs ++ sf.queue.map DelayMessage.value =
         s.queue.map DelayMessage.value ++ arrivals T es)
    ∨ (outs = (s.queue.map DelayMessage.value ++ arrivals T es).map OutEvent.next
         ++ [OutEvent.complete]
       ∧ sf.queue = [] ∧ sf.isStopped = true ∧ sf.armed = 0) := by
  induction es generalizing s lastT outs with
  | nil =>
    simp only [runFrom, Option.some.injEq, Prod.mk.injEq] at hr
    left
    constructor
    · intro o ho
      rw [← hr.2] at ho
      exact absurd ho (List.not_mem_nil o)
    · rw [← hr.1, ← hr.2]
      simp [emitted, arrivals]
  | cons e rest ih =>
    obtain ⟨hv, outs2, hrec, houts⟩ := runFrom_cons_inv T δ s lastT e rest sf outs hr
    have hreach1 := reach_step T δ lastT s e h hv
    cases e with
    | error t =>
      exfalso
      simp [hasError, UEvent.isErr] at hne
    | next t v =>
      have hne' : hasError T rest = false := by
        simpa [hasError, UEvent.isErr] using hne
      simp only [stepFn, UEvent.time] at hrec hreach1 houts
      have hq1 := (nextStep_common T δ t v s).1
      have ho1 := (nextStep_common T δ t v s).2.1
      have he1 := (nextStep_common T δ t v s).2.2.1
      have herr1 : (nextStep T δ t v s).1.errored = false := by rw [he1]; exact herr
      have houts' : outs = outs2 := by rw [houts, ho1]; rfl
      rcases ih _ _ _ hrec hne' hreach1 herr1 with ⟨hno, hacc⟩ | ⟨hout, hq2, hs2, ha2⟩
      · left
        refine ⟨by rw [houts']; exact hno, ?_⟩
        rw [houts', hacc, hq1]
        simp [arrivals, List.append_assoc]
      · right
        refine ⟨?_, hq2, hs2, ha2⟩
        rw [houts', hout, hq1]
        simp [arrivals, List.append_assoc]
    | complete t =>
      have hne' : hasError T rest = false := by
        simpa [hasError, UEvent.isErr] using hne
      simp only [stepFn, UEvent.time] at hrec hreach1 houts
      have hstep1 : (completeStep T s).1 = { s with isStopped := true } :=
        completeStep_common T s
      by_cases hqe : s.queue.isEmpty
      · have hq0 : s.queue = [] := by simpa [List.isEmpty_iff] using hqe
        have harm0 : s.armed = 0 := by
          cases ha : s.armed with
          | zero => rfl
          | succ n =>
            have h1 : s.armed = 1 := by
              have := h.armed_le
              omega
            exact absurd hq0 (h.armed_queue h1)
        have ho2 : (completeStep T s).2 = [OutEvent.complete] := by
          simp [completeStep, hqe]
        obtain ⟨hrest, hsf, ho0⟩ :=
          runFrom_frozen T δ (completeStep T s).1 t rest sf outs2 hrec
            (by rw [hstep1]) (by rw [hstep1]; exact harm0)
        right
        refine ⟨?_, ?_, ?_, ?_⟩
        · rw [houts, ho2, ho0, hq0]
          subst hrest
          simp [arrivals]
        · rw [hsf, hstep1]
          exact hq0
        · rw [hsf, hstep1]
        · rw [hsf, hstep1]
          exact harm0
      · have ho2 : (completeStep T s).2 = [] := by
          simp [completeStep, hqe]
        have herr1 : (completeStep T s).1.errored = false := by rw [hstep1]; exact herr
        have houts' : outs = outs2 := by rw [houts, ho2]; rfl
        rcases ih _ _ _ hrec hne' hreach1 herr1 with ⟨hno, hacc⟩ | ⟨hout, hq2, hs2, ha2⟩
        · left
          refine ⟨by rw [houts']; exact hno, ?_⟩
          rw [houts', hacc, hstep1]
          simp [arrivals]
        · right
          refine ⟨?_, hq2, hs2, ha2⟩
          rw [houts', hout, hstep1]
          simp [arrivals]
    | dispatch t =>
      have hne' : hasError T rest = false := by
        simpa [hasError, UEvent.isErr] using hne
      simp only [validEventB, Bool.and_eq_true, decide_eq_true_eq] at hv
      have harm1 : s.armed = 1 := le_antisymm h.armed_le hv.2
      simp only [stepFn, UEvent.time] at hrec hreach1 houts
      have hvals := drainDue_values T t s.queue
      cases hq : (drainDue T t s.queue).1 with
      | cons m rest' =>
        have hstep1 : (dispatchStep T t s).1 =
            { s with queue := m :: rest', armedWait := some (max 0 (m.time - t)) } := by
          simp [dispatchStep, hq, dispatchAfter]
        have ho2 : (dispatchStep T t s).2 =
            ((drainDue T t s.queue).2).map OutEvent.next := by
          simp [dispatchStep, hq, dispatchAfter]
        have herr1 : (dispatchStep T t s).1.errored = false := by rw [hstep1]; exact herr
        rcases ih _ _ _ hrec hne' hreach1 herr1 with ⟨hno, hacc⟩ | ⟨hout, hq2, hs2, ha2⟩
        · left
          constructor
          · intro o ho
            rw [houts, ho2] at ho
            rcases List.mem_append.1 ho with ho | ho
            · obtain ⟨w, -, rfl⟩ := List.mem_map.1 ho
              exact ⟨w, rfl⟩
            · exact hno o ho
          · rw [houts, ho2, emitted_append, emitted_map_next, List.append_assoc,
              hacc, hstep1, hvals, hq]
            simp [arrivals, List.append_assoc]
        · right
          refine ⟨?_, hq2, hs2, ha2⟩
          rw [houts, ho2, hout, hstep1, hvals, hq]
          simp [arrivals, List.append_assoc]
      | nil =>
        have hsqv : s.queue.map DelayMessage.value = (drainDue T t s.queue).2 := by
          rw [hvals, hq]
          simp
        by_cases hst : s.isStopped = true
        · have hstep1 : (dispatchStep T t s).1 =
              { s with queue := [], active := false, armed := s.armed - 1, armedWait := none } := by
            simp [dispatchStep, hq, dispatchAfter, hst]
          have ho2 : (dispatchStep T t s).2 =
              ((drainDue T t s.queue).2).map OutEvent.next ++ [OutEvent.complete] := by
            simp [dispatchStep, hq, dispatchAfter, hst]
          obtain ⟨hrest, hsf, ho0⟩ :=
            runFrom_frozen T δ (dispatchStep T t s).1 t rest sf outs2 hrec
              (by rw [hstep1]; exact hst)
              (by rw [hstep1]; show s.armed - 1 = 0; omega)
          right
          refine ⟨?_, ?_, ?_, ?_⟩
          · rw [houts, ho2, ho0, hsqv]
            subst hrest
            simp [arrivals]
          · rw [hsf, hstep1]
          · rw [hsf, hstep1]
            exact hst
          · rw [hsf, hstep1]
            show s.armed - 1 = 0
            omega
        · have hst' : s.isStopped = false := by
            revert hst
            cases s.isStopped <;> simp
          have hstep1 : (dispatchStep T t s).1 =
              { s with queue := [], active := false, armed := s.armed - 1, armedWait := none } := by
            simp [dispatchStep, hq, dispatchAfter, hst']
          have ho2 : (dispatchStep T t s).2 =
              ((drainDue T t s.queue).2).map OutEvent.next := by
            simp [dispatchStep, hq, dispatchAfter, hst']
          have herr1 : (dispatchStep T t s).1.errored = false := by rw [hstep1]; exact herr
          rcases ih _ _ _ hrec hne' hreach1 herr1 with ⟨hno, hacc⟩ | ⟨hout, hq2, hs2, ha2⟩
          · left
            constructor
            · intro o ho
              rw [houts, ho2] at ho
              rcases List.mem_append.1 ho with ho | ho
              · obtain ⟨w, -, rfl⟩ := List.mem_map.1 ho
                exact ⟨w, rfl⟩
              · exact hno o ho
            · rw [houts, ho2, emitted_append, emitted_map_next, List.append_assoc,
                hacc, hstep1, hsqv]
              simp [arrivals]
          · right
            refine ⟨?_, hq2, hs2, ha2⟩
            rw [houts, ho2, hout, hstep1, hsqv]
            simp [arrivals]

/-- Claim C2: for every finite valid history with no upstream error whose
buffer has fully drained, the downstream receives exactly the arrived values,
in arrival order. -/
theorem C2_order_preservation (T : Type) (δ t0 : Int) (es : List (UEvent T))
    (sf : DelayState T) (outs : List (OutEvent T))
    (hr : run T δ t0 es = some (sf, outs))
    (hne : hasError T es = false)
    (hdrained : sf.queue = []) :
    emitted T outs = arrivals T es := by
  have hr' : runFrom T δ (initState T) t0 es = some (sf, outs) := hr
  rcases run_shape T δ (initState T) t0 es sf outs hr' hne (reach_init T δ t0) rfl with
    ⟨-, hacc⟩ | ⟨hout, -, -, -⟩
  · rw [hdrained] at hacc
    simpa [initState] using hacc
  · rw [hout]
    simp [initState, emitted_append, emitted_map_next, emitted]

/-- Witness for C2_order_preservation: two values delayed by 10 and a single
dispatch at 13 that drains both, in arrival order. -/
theorem C2_order_preservation_witness :
    emitted Nat [OutEvent.next 1, OutEvent.next 2] =
      arrivals Nat [UEvent.next 0 1, UEvent.next 3 2, UEvent.dispatch 13] :=
  C2_order_preservation Nat 10 0 [UEvent.next 0 1, UEvent.next 3 2, UEvent.dispatch 13]
    { queue := [], active := false, isStopped := false, errored := false,
      armed := 0, armedWait := none }
    [OutEvent.next 1, OutEvent.next 2] (by decide) (by decide) (by decide)

/-- Claim C3: in an error-free run, if completion was forwarded downstream
then the downstream trace is exactly every arrived value, in order, followed
by the single completion — completion never precedes a buffered value; and
when upstream completes with an empty queue, `_complete` forwards completion
downstream in that very step. -/
theorem C3_completion_deferral (T : Type) (δ t0 : Int) (es : List (UEvent T))
    (sf : DelayState T) (outs : List (OutEvent T))
    (hr : run T δ t0 es = some (sf, outs))
    (hne : hasError T es = false)
    (hc : OutEvent.complete ∈ outs) :
    outs = (arrivals T es).map OutEvent.next ++ [OutEvent.complete] ∧
    (∀ s : DelayState T, s.queue = [] → (completeStep T s).2 = [OutEvent.complete]) := by
  have hr' : runFrom T δ (initState T) t0 es = some (sf, outs) := hr
  refine ⟨?_, ?_⟩
  · rcases run_shape T δ (initState T) t0 es sf outs hr' hne (reach_init T δ t0) rfl with
      ⟨hno, -⟩ | ⟨hout, -, -, -⟩
    · obtain ⟨v, hv⟩ := hno _ hc
      exact OutEvent.noConfusion hv
    · rw [hout]
      simp [initState]
  · intro s hqe
    simp [completeStep, hqe]

/-- Witness for C3_completion_deferral: completion arrives before the single
buffered value is due, and downstream sees the value and then completion. -/
theorem C3_completion_deferral_witness :
    [OutEvent.next 1, OutEvent.complete] =
      (arrivals Nat [UEvent.next 0 1, UEvent.complete 1, UEvent.dispatch 10]).map
          OutEvent.next ++ [OutEvent.complete] :=
  (C3_completion_deferral Nat 10 0
    [UEvent.next 0 1, UEvent.complete 1, UEvent.dispatch 10]
    { queue := [], active := false, isStopped := true, errored := false,
      armed := 0, armedWait := none }
    [OutEvent.next 1, OutEvent.complete] (by decide) (by decide) (by decide)).1

/-- Claim C4: when upstream errors, nothing can happen afterwards (the stage
is torn down, so the remaining history is empty), the pending queue ends
empty, and the downstream trace is some already-emitted values followed by
the error as its final element — no buffered value is ever delivered after
the error, and the error itself is forwarded in the very step in which it
arrived (`errorStep` emits it synchronously). -/
theorem C4_error_bypass (T : Type) (δ t0 t : Int) (es1 es2 : List (UEvent T))
    (sf : DelayState T) (outs : List (OutEvent T))
    (hr : run T δ t0 (es1 ++ UEvent.error t :: es2) = some (sf, outs))
    (hne : hasError T es1 = false) :
    es2 = [] ∧ sf.queue = [] ∧
      ∃ vs : List T, outs = vs.map OutEvent.next ++ [OutEvent.error] := by
  have hr' : runFrom T δ (initState T) t0 (es1 ++ UEvent.error t :: es2) =
      some (sf, outs) := hr
  rw [runFrom_append] at hr'
  cases hA : runFrom T δ (initState T) t0 es1 with
  | none =>
    rw [hA] at hr'
    exact absurd hr' (by simp)
  | some p =>
    obtain ⟨s1, o1⟩ := p
    rw [hA] at hr'
    simp only [Option.some_bind] at hr'
    rw [Option.map_eq_some'] at hr'
    obtain ⟨⟨s2, o2⟩, hB, hEq⟩ := hr'
    obtain ⟨hv, o3, hC, ho2⟩ :=
      runFrom_cons_inv T δ s1 (lastTime T t0 es1) (UEvent.error t) es2 s2 o2 hB
    simp only [stepFn, UEvent.time] at hC ho2
    obtain ⟨hes2, hs2, ho3⟩ := runFrom_frozen T δ (errorStep T s1).1 t es2 s2 o3 hC rfl rfl
    simp only [Prod.mk.injEq] at hEq
    have hstop1 : s1.isStopped = false := by
      simp only [validEventB, Bool.and_eq_true, Bool.not_eq_true'] at hv
      exact hv.2
    rcases run_shape T δ (initState T) t0 es1 s1 o1 hA hne (reach_init T δ t0) rfl with
      ⟨hno, -⟩ | ⟨-, -, hs1stop, -⟩
    · refine ⟨hes2, ?_, emitted T o1, ?_⟩
      · rw [← hEq.1, hs2]
        rfl
      · rw [← hEq.2, ho2, ho3, ← nextsOnly_eq_map T o1 hno]
        simp [errorStep]
    · exact absurd hs1stop (by simp [hstop1])

/-- Witness for C4_error_bypass: one value buffered with delay 100, an error
at time 1: the queue is discarded and downstream receives only the error. -/
theorem C4_error_bypass_witness :
    ([] : List (UEvent Nat)) = [] ∧
    ({ queue := [], active := true, isStopped := true, errored := true,
       armed := 0, armedWait := none } : DelayState Nat).queue = [] ∧
    ∃ vs : List Nat, [OutEvent.error] = vs.map OutEvent.next ++ [OutEvent.error] :=
  C4_error_bypass Nat 100 0 1 [UEvent.next 0 1] []
    { queue := [], active := true, isStopped := true, errored := true,
      armed := 0, armedWait := none }
    [OutEvent.error] (by decide) (by decide)

/-- Claim C5, as stated, fails at a reachable state: after the valid history
"value at time 0, upstream error at time 1" (delay 5), the final state has
`active = true` — `_error` never clears the flag — while `armed = 0`: the
error teardown cancelled the dispatch action.  So "the Activity Flag is true
iff a dispatch action is currently armed" does not hold in every reachable
state. -/
theorem C5_counterexample :
    run Nat 5 0 [UEvent.next 0 7, UEvent.error 1] =
      some ({ queue := [], active := true, isStopped := true, errored := true,
              armed := 0, armedWait := none }, [OutEvent.error]) ∧
    ({ queue := [], active := true, isStopped := true, errored := true,
       armed := 0, armedWait := none } : DelayState Nat).active = true ∧
    ({ queue := [], active := true, isStopped := true, errored := true,
       armed := 0, armedWait := none } : DelayState Nat).armed = 0 := by
  decide

/-- Claim C5 (amended): in every reachable state at most one dispatch action
is armed; and in every reachable state in which no upstream error has
occurred, the Activity Flag is true iff a dispatch action is armed.  (After
an upstream error the teardown cancels the armed action but `_error` leaves
the flag set, so the "iff" is restricted to error-free states.) -/
theorem C5_activity_flag (T : Type) (δ t0 : Int) (es : List (UEvent T))
    (sf : DelayState T) (outs : List (OutEvent T))
    (hr : run T δ t0 es = some (sf, outs)) :
    sf.armed ≤ 1 ∧ (sf.errored = false → (sf.active = true ↔ sf.armed = 1)) := by
  have hre := reach_run T δ (initState T) t0 es sf outs hr (reach_init T δ t0)
  refine ⟨hre.armed_le, ?_⟩
  intro he
  rw [hre.active_armed he]
  simp

/-- Witness for C5_activity_flag after a single enqueue: one action armed and
the flag set. -/
theorem C5_activity_flag_witness :
    ({ queue := [⟨5, 1⟩], active := true, isStopped := false, errored := false,
       armed := 1, armedWait := some 5 } : DelayState Nat).armed ≤ 1 ∧
    (({ queue := [⟨5, 1⟩], active := true, isStopped := false, errored := false,
        armed := 1, armedWait := some 5 } : DelayState Nat).errored = false →
      (({ queue := [⟨5, 1⟩], active := true, isStopped := false, errored := false,
          armed := 1, armedWait := some 5 } : DelayState Nat).active = true ↔
       ({ queue := [⟨5, 1⟩], active := true, isStopped := false, errored := false,
          armed := 1, armedWait := some 5 } : DelayState Nat).armed = 1)) :=
  C5_activity_flag Nat 5 0 [UEvent.next 0 1]
    { queue := [⟨5, 1⟩], active := true, isStopped := false, errored := false,
      armed := 1, armedWait := some 5 }
    [] (by decide)

/-- Claim C6: a dispatch wakeup at clock `t` that still has a non-empty queue
after the drain loop reschedules the same action with wait
`Math.max(0, head.time - t)` and leaves the activity flag and the number of
armed actions unchanged — the stage stays armed. -/
theorem C6_rearm_wait (T : Type) (t : Int) (s : DelayState T)
    (m : DelayMessage T) (rest : List (DelayMessage T))
    (hq : (drainDue T t s.queue).1 = m :: rest) :
    (dispatchStep T t s).1.queue = m :: rest ∧
    (dispatchStep T t s).1.armedWait = some (max 0 (m.time - t)) ∧
    (dispatchStep T t s).1.active = s.active ∧
    (dispatchStep T t s).1.armed = s.armed := by
  simp [dispatchStep, hq, dispatchAfter]

/-- Witness for C6_rearm_wait: one message due at 5, wakeup at 0, rearmed
with wait `max 0 (5 - 0) = 5`. -/
theorem C6_rearm_wait_witness :
    (dispatchStep Nat 0 ⟨[⟨5, 1⟩], true, false, false, 1, some 5⟩).1.queue = [⟨5, 1⟩] ∧
    (dispatchStep Nat 0 ⟨[⟨5, 1⟩], true, false, false, 1, some 5⟩).1.armedWait =
        some (max 0 ((5 : Int) - 0)) ∧
    (dispatchStep Nat 0 ⟨[⟨5, 1⟩], true, false, false, 1, some 5⟩).1.active =
      (⟨[⟨5, 1⟩], true, false, false, 1, some 5⟩ : DelayState Nat).active ∧
    (dispatchStep Nat 0 ⟨[⟨5, 1⟩], true, false, false, 1, some 5⟩).1.armed =
      (⟨[⟨5, 1⟩], true, false, false, 1, some 5⟩ : DelayState Nat).armed :=
  C6_rearm_wait Nat 0 ⟨[⟨5, 1⟩], true, false, false, 1, some 5⟩ ⟨5, 1⟩ [] (by decide)

/-- Claim C7: a value arriving at clock `t` while the stage is live (a valid
`next` event after any valid history) is appended at the tail of the queue
with due time `scheduler.now() + delayDuration`, nothing is emitted and the
step cannot fail; and a dispatch action is armed exactly when none is armed:
in a reachable pre-error state the code's `active === false` test is
equivalent to "no action armed", so with no armed action the step arms one
with wait `δ`, and with one armed it arms nothing. -/
theorem C7_enqueue (T : Type) (δ t0 t : Int) (v : T) (es : List (UEvent T))
    (sf : DelayState T) (outs : List (OutEvent T))
    (hr : run T δ t0 es = some (sf, outs))
    (hv : validEventB T sf (lastTime T t0 es) (UEvent.next t v) = true) :
    (nextStep T δ t v sf).1.queue = sf.queue ++ [⟨t + δ, v⟩] ∧
    (nextStep T δ t v sf).2 = [] ∧
    (sf.armed = 0 →
      (nextStep T δ t v sf).1.armed = 1 ∧
      (nextStep T δ t v sf).1.armedWait = some δ) ∧
    (sf.armed = 1 →
      (nextStep T δ t v sf).1.armed = 1 ∧
      (nextStep T δ t v sf).1.armedWait = sf.armedWait) := by
  have hre := reach_run T δ (initState T) t0 es sf outs hr (reach_init T δ t0)
  have hstop : sf.isStopped = false := by
    simp only [validEventB, Bool.and_eq_true, Bool.not_eq_true'] at hv
    exact hv.2
  have herr : sf.errored = false := by
    cases he : sf.errored with
    | false => rfl
    | true => rw [(hre.errored_state he).2.2] at hstop; cases hstop
  have hact := hre.active_armed herr
  refine ⟨(nextStep_common T δ t v sf).1, (nextStep_common T δ t v sf).2.1, ?_, ?_⟩
  · intro h0
    have ha : sf.active = false := by
      rw [hact, h0]
      rfl
    simp [nextStep, ha, h0]
  · intro h1
    have ha : sf.active = true := by
      rw [hact, h1]
      rfl
    simp [nextStep, ha, h1]

/-- Witness for C7_enqueue on the fresh stage (no action armed). -/
theorem C7_enqueue_witness :
    (nextStep Nat 5 1 7 (initState Nat)).1.queue =
      (initState Nat).queue ++ [⟨1 + 5, 7⟩] ∧
    (nextStep Nat 5 1 7 (initState Nat)).2 = [] ∧
    ((initState Nat).armed = 0 →
      (nextStep Nat 5 1 7 (initState Nat)).1.armed = 1 ∧
      (nextStep Nat 5 1 7 (initState Nat)).1.armedWait = some 5) ∧
    ((initState Nat).armed = 1 →
      (nextStep Nat 5 1 7 (initState Nat)).1.armed = 1 ∧
      (nextStep Nat 5 1 7 (initState Nat)).1.armedWait = (initState Nat).armedWait) :=
  C7_enqueue Nat 5 0 1 7 [] (initState Nat) [] (by decide) (by decide)

/-- Claim C8: in every reachable state of a run (the delay duration is fixed
for the whole run and clock monotonicity is enforced by event validity) the
pending queue is sorted by due time — enqueue appends at the tail, dispatch
removes only from the head. -/
theorem C8_queue_sorted (T : Type) (δ t0 : Int) (es : List (UEvent T))
    (sf : DelayState T) (outs : List (OutEvent T))
    (hr : run T δ t0 es = some (sf, outs)) :
    List.Chain' (fun a b : DelayMessage T => a.time ≤ b.time) sf.queue :=
  (reach_run T δ (initState T) t0 es sf outs hr (reach_init T δ t0)).sorted

/-- Witness for C8_queue_sorted: two values arriving at 0 and 2 with delay 5
leave a queue with due times 5 then 7, sorted. -/
theorem C8_queue_sorted_witness :
    List.Chain' (fun a b : DelayMessage Nat => a.time ≤ b.time)
      ({ queue := [⟨5, 1⟩, ⟨7, 2⟩], active := true, isStopped := false,
         errored := false, armed := 1, armedWait := some 5 } : DelayState Nat).queue :=
  C8_queue_sorted Nat 5 0 [UEvent.next 0 1, UEvent.next 2 2]
    { queue := [⟨5, 1⟩, ⟨7, 2⟩], active := true, isStopped := false,
      errored := false, armed := 1, armedWait := some 5 }
    [] (by decide)

/-- Claim C9: a dispatch wakeup that finds the queue drained empty while the
Stopped Flag is set forwards completion downstream (after the values drained
in the same wakeup), clears the Activity Flag, and leaves no armed action and
no stored action handle. -/
theorem C9_drain_complete (T : Type) (t : Int) (s : DelayState T)
    (hq : (drainDue T t s.queue).1 = [])
    (hstop : s.isStopped = true) (harm : s.armed = 1) :
    (dispatchStep T t s).2 =
      ((drainDue T t s.queue).2).map OutEvent.next ++ [OutEvent.complete] ∧
    (dispatchStep T t s).1.active = false ∧
    (dispatchStep T t s).1.armed = 0 ∧
    (dispatchStep T t s).1.armedWait = none ∧
    (dispatchStep T t s).1.queue = [] := by
  simp [dispatchStep, hq, dispatchAfter, hstop, harm]

/-- Witness for C9_drain_complete: a stopped stage with one due message at
wakeup time 10 emits the value then completion and disarms. -/
theorem C9_drain_complete_witness :
    (dispatchStep Nat 10 ⟨[⟨3, 5⟩], true, true, false, 1, some 3⟩).2 =
      ((drainDue Nat 10 [⟨3, 5⟩]).2).map OutEvent.next ++ [OutEvent.complete] ∧
    (dispatchStep Nat 10 ⟨[⟨3, 5⟩], true, true, false, 1, some 3⟩).1.active = false ∧
    (dispatchStep Nat 10 ⟨[⟨3, 5⟩], true, true, false, 1, some 3⟩).1.armed = 0 ∧
    (dispatchStep Nat 10 ⟨[⟨3, 5⟩], true, true, false, 1, some 3⟩).1.armedWait = none ∧
    (dispatchStep Nat 10 ⟨[⟨3, 5⟩], true, true, false, 1, some 3⟩).1.queue = [] :=
  C9_drain_complete Nat 10 ⟨[⟨3, 5⟩], true, true, false, 1, some 3⟩
    (by decide) (by decide) (by decide)
